import Mathlib

/-!
Verification of the timeline reconstruction engine of
`lil_wiki_scraper_transformer` (`src/timeline_builder.py`).

The development shallowly embeds the Python source: the `Event` dataclass,
`normalize_title`, the by-title dictionary built in `main`, the
start-candidate scan, the chain-building `while` loop (given explicit fuel,
with a proved fuel-stability theorem standing for termination), the
`timeline_index` assignment, and the per-file JSON loading of
`load_main_events`.  Fuzzy matching (`thefuzz.process.extractOne`) is an
external library; it is embedded parametrically in its scoring function,
which is how the spec also treats it (a swappable `score(a, b) -> 0..100`
capability).
-/

namespace TimelineBuilder

/-- JSON values, as `json.load` produces them (numbers collapsed to `Int`;
no claim under verification depends on numeric payloads). -/
inductive Json where
  | null : Json
  | bool (b : Bool) : Json
  | num (n : Int) : Json
  | str (s : String) : Json
  | arr (xs : List Json) : Json
  | obj (kvs : List (String × Json)) : Json

/-- Python `str.isspace` / the whitespace set stripped by `str.strip()`,
exact on ASCII and on the standard Unicode space code points. -/
def pyIsSpace (c : Char) : Bool :=
  let n := c.toNat
  (0x09 ≤ n && n ≤ 0x0D) || n == 0x20 || (0x1C ≤ n && n ≤ 0x1F) ||
  n == 0x85 || n == 0xA0 || n == 0x1680 || (0x2000 ≤ n && n ≤ 0x200A) ||
  n == 0x2028 || n == 0x2029 || n == 0x202F || n == 0x205F || n == 0x3000

/-- Python `str.isprintable`, exact on ASCII (printable iff `0x20 ≤ c ≤ 0x7E`)
and on the common Unicode control/format/separator ranges. -/
def pyIsPrintable (c : Char) : Bool :=
  let n := c.toNat
  if n < 0x20 then false
  else if n == 0x7F then false
  else if 0x80 ≤ n && n ≤ 0xA0 then false
  else if n == 0xAD then false
  else if n == 0x1680 then false
  else if 0x2000 ≤ n && n ≤ 0x200F then false
  else if 0x2028 ≤ n && n ≤ 0x202F then false
  else if n == 0x205F || (0x2060 ≤ n && n ≤ 0x2064) then false
  else if n == 0x3000 || n == 0xFEFF then false
  else true

/-- Python `str.strip()`: drop leading and trailing whitespace characters. -/
def pyStrip (s : String) : String :=
  String.mk (((s.data.dropWhile pyIsSpace).reverse.dropWhile pyIsSpace).reverse)

/-- `normalize_title` (timeline_builder.py line 56): `""` on falsy input
(`None` or the empty string), otherwise keep the printable characters of the
stripped string.  The Python parameter is `Optional` in practice (it is called
on `navigation.get(...)`), modelled by `Option String`. -/
def normalize_title (title : Option String) : String :=
  match title with
  | none => ""
  | some t => if t = "" then "" else String.mk ((pyStrip t).data.filter pyIsPrintable)

/-- The `Event` dataclass (timeline_builder.py lines 12-28).  Field names and
optionality follow the source; only `timeline_index` has a default. -/
structure Event where
  event_id : String
  event_title : String
  url : String
  event_type : Option String
  chapter : Option String
  synopsis : Option String
  characters : List String
  locations : List String
  requirements : Option String
  choices : List Json
  effects : List String
  navigation : List (String × Option String)
  trivia : List String
  changelog : List String
  timeline_index : Option Int := none

/-- Python `dict.get(k)` on the navigation dict: `None` both when the key is
absent and when the stored value is `null`. -/
def pyDictGet (nav : List (String × Option String)) (k : String) : Option String :=
  match nav.find? (fun p => p.1 == k) with
  | some p => p.2
  | none => none

/-- One Python dict insertion: an existing key keeps its position and gets the
new value (later entries overwrite earlier ones), a new key is appended. -/
def dictInsert (d : List (String × Event)) (k : String) (v : Event) :
    List (String × Event) :=
  if (d.find? (fun p => p.1 == k)).isSome then
    d.map (fun p => if p.1 == k then (k, v) else p)
  else d ++ [(k, v)]

/-- `events_by_title = {event.event_title: event for event in main_events}`
(line 77), as the Python dict comprehension evaluates it: left-to-right
insertion, duplicate titles overwritten by the later event. -/
def eventsByTitle (es : List Event) : List (String × Event) :=
  es.foldl (fun d e => dictInsert d e.event_title e) []

/-- Python `dict.get(k)` on the by-title dict. -/
def dictGetEvent (d : List (String × Event)) (k : String) : Option Event :=
  (d.find? (fun p => p.1 == k)).map (fun p => p.2)

/-- `all_main_event_titles = set(events_by_title.keys())` (line 78); keys are
pairwise distinct, so the list is the set. -/
def allMainEventTitles (d : List (String × Event)) : List String :=
  d.map (fun p => p.1)

/-- Start-candidate test (lines 82-86): the raw `navigation.get('previous_event')`
value is tested by plain set membership against the raw title set; a `None`
previous is never a member, hence a candidate. -/
def isStartCandidate (titles : List String) (e : Event) : Bool :=
  match pyDictGet e.navigation "previous_event" with
  | none => true
  | some t => !(titles.contains t)

/-- `starting_events` (lines 82-86): every loaded event passing the test, in
load order. -/
def startingEvents (es : List Event) : List Event :=
  es.filter (isStartCandidate (allMainEventTitles (eventsByTitle es)))

/-- `thefuzz.process.extractOne(query, choices)`: the best-scoring choice with
its score, `none` on empty choices; parametric in the scorer, first maximal
choice wins ties. -/
def extractOne (score : String → String → Nat) (query : String)
    (choices : List String) : Option (String × Nat) :=
  choices.foldl (fun best c =>
    match best with
    | none => some (c, score query c)
    | some bs => if score query c > bs.2 then some (c, score query c) else some bs)
    none

/-- Link resolution of a (normalized) next title, lines 125-134: exact dict
lookup first; on a miss with a non-empty title, fuzzy matching over all known
titles, accepted exactly when the best score is strictly above 90. -/
def resolveNext (score : String → String → Nat) (byTitle : List (String × Event))
    (titles : List String) (next_title : String) : Option Event :=
  match dictGetEvent byTitle next_title with
  | some e => some e
  | none =>
      if next_title ≠ "" then
        match extractOne score next_title titles with
        | some bm => if bm.2 > 90 then dictGetEvent byTitle bm.1 else none
        | none => none
      else none

/-- Normalized title of an event, as the chain loop computes it (line 111). -/
def normTitle (e : Event) : String :=
  normalize_title (some e.event_title)

/-- The chain walk (the `while current_event` loop, lines 110-136), with
explicit fuel for the recursion; `walkChain_fuel_stable` below shows any fuel
of at least the number of distinct reachable titles plus one gives the same
result, which is the source loop's termination.  Returns the chain and the
updated `processed_titles`. -/
def walkChain (score : String → String → Nat) (byTitle : List (String × Event))
    (titles : List String) : Nat → List String → Event → List Event × List String
  | 0, processed, _ => ([], processed)
  | fuel + 1, processed, cur =>
      if normTitle cur ∈ processed then ([], processed)
      else
        let processed' := normTitle cur :: processed
        let next_title := normalize_title (pyDictGet cur.navigation "next_event")
        if next_title = "" then ([cur], processed')
        else
          match resolveNext score byTitle titles next_title with
          | none => ([cur], processed')
          | some ne =>
              let r := walkChain score byTitle titles fuel processed' ne
              (cur :: r.1, r.2)

/-- The outer loop over `starting_events` (lines 99-138) at a given fuel:
accumulates the list of chains and the shared `processed_titles`; a start
whose normalized title was already processed is skipped (`continue`). -/
def chainsAndProcessed (score : String → String → Nat) (es : List Event)
    (fuel : Nat) : List (List Event) × List String :=
  (startingEvents es).foldl (fun acc se =>
    if normTitle se ∈ acc.2 then acc
    else
      let r := walkChain score (eventsByTitle es)
        (allMainEventTitles (eventsByTitle es)) fuel acc.2 se
      (acc.1 ++ [r.1], r.2)) ([], [])

/-- The chains of one run; `es.length + 1` fuel is enough (`walk_fuel_stable`). -/
def buildChains (score : String → String → Nat) (es : List Event) :
    List (List Event) :=
  (chainsAndProcessed score es (es.length + 1)).1

/-- Final `processed_titles` of one run. -/
def finalProcessed (score : String → String → Nat) (es : List Event) :
    List String :=
  (chainsAndProcessed score es (es.length + 1)).2

/-- `full_timeline` (line 138): the concatenation of the chains. -/
def fullTimeline (score : String → String → Nat) (es : List Event) : List Event :=
  (buildChains score es).flatten

/-- `placed_count = len(full_timeline)` (line 141). -/
def placedCount (score : String → String → Nat) (es : List Event) : Nat :=
  (fullTimeline score es).length

/-- `missed_events = all_main_event_titles - processed_titles` (line 145);
the key list is duplicate-free, so filtering it computes the set difference. -/
def missedEvents (score : String → String → Nat) (es : List Event) : List String :=
  (allMainEventTitles (eventsByTitle es)).filter
    (fun t => decide (t ∉ finalProcessed score es))

/-- The orphan count reported at line 147. -/
def orphanCount (score : String → String → Nat) (es : List Event) : Nat :=
  (missedEvents score es).length

/-- The `timeline_index` assignment (lines 150-151), indices from `i`. -/
def assembleFrom (i : Nat) : List Event → List Event
  | [] => []
  | e :: tl => { e with timeline_index := some (i : Int) } :: assembleFrom (i + 1) tl

/-- The Timeline Assembler: `for i, event in enumerate(full_timeline):
event.timeline_index = i`. -/
def assemble (tl : List Event) : List Event :=
  assembleFrom 0 tl

/-- An event with the given id, title and navigation links and empty payload,
used for concrete corpora. -/
def mkEvent (id title : String) (prev next : Option String) : Event :=
  { event_id := id, event_title := title, url := "", event_type := none,
    chapter := none, synopsis := none, characters := [], locations := [],
    requirements := none, choices := [], effects := [],
    navigation := [("previous_event", prev), ("next_event", next)],
    trivia := [], changelog := [], timeline_index := none }

/-! ### Lemmas about `pyStrip` and `normalize_title` -/

theorem pyStrip_data (s : String) :
    (pyStrip s).data = List.rdropWhile pyIsSpace (s.data.dropWhile pyIsSpace) := rfl

theorem string_mk_data (s : String) : String.mk s.data = s := by
  cases s
  rfl

theorem pyStrip_subset (s : String) (c : Char) (hc : c ∈ (pyStrip s).data) :
    c ∈ s.data := by
  rw [pyStrip_data] at hc
  exact ((List.rdropWhile_prefix _ _).sublist.trans
    (List.dropWhile_suffix _).sublist).subset hc

theorem dropWhile_pyStrip (s : String) :
    (pyStrip s).data.dropWhile pyIsSpace = (pyStrip s).data := by
  rw [pyStrip_data, List.dropWhile_eq_self_iff]
  intro hl
  have hpre := List.rdropWhile_prefix pyIsSpace (s.data.dropWhile pyIsSpace)
  have hlen : 0 < (s.data.dropWhile pyIsSpace).length :=
    lt_of_lt_of_le hl hpre.length_le
  have hget := List.IsPrefix.getElem hpre hl
  have h0 := List.dropWhile_get_zero_not pyIsSpace s.data hlen
  simpa [List.get_eq_getElem, hget] using h0

theorem pyStrip_idem (s : String) : pyStrip (pyStrip s) = pyStrip s := by
  have h1 : (pyStrip (pyStrip s)).data
      = List.rdropWhile pyIsSpace ((pyStrip s).data.dropWhile pyIsSpace) := rfl
  have h2 : (pyStrip (pyStrip s)).data = (pyStrip s).data := by
    rw [h1, dropWhile_pyStrip, pyStrip_data, List.rdropWhile_idempotent]
  calc pyStrip (pyStrip s) = String.mk (pyStrip (pyStrip s)).data :=
        (string_mk_data _).symm
    _ = String.mk (pyStrip s).data := by rw [h2]
    _ = pyStrip s := string_mk_data _

theorem normalize_title_mem_printable (s : String) (c : Char)
    (hc : c ∈ (normalize_title (some s)).data) : pyIsPrintable c = true := by
  by_cases h : s = ""
  · subst h
    simp [normalize_title] at hc
  · simp only [normalize_title, if_neg h] at hc
    exact (List.mem_filter.mp hc).2

theorem normalize_title_of_printable (s : String)
    (h : ∀ c ∈ s.data, pyIsPrintable c = true) :
    normalize_title (some s) = pyStrip s := by
  by_cases hs : s = ""
  · subst hs
    rfl
  · simp only [normalize_title, if_neg hs]
    rw [List.filter_eq_self.mpr (fun c hc => h c (pyStrip_subset s c hc))]

/-- C4 (amended part): `normalize_title` of `None`/empty is `""`; its result
never contains a non-printable character; and on input made of printable
characters it is idempotent and its result is strip-fixed (no leading or
trailing whitespace). -/
theorem normalize_title_amended :
    normalize_title none = "" ∧ normalize_title (some "") = "" ∧
    (∀ s c, c ∈ (normalize_title (some s)).data → pyIsPrintable c = true) ∧
    (∀ s, (∀ c ∈ s.data, pyIsPrintable c = true) →
      normalize_title (some (normalize_title (some s))) = normalize_title (some s) ∧
      pyStrip (normalize_title (some s)) = normalize_title (some s)) := by
  refine ⟨rfl, rfl, normalize_title_mem_printable, fun s hs => ?_⟩
  rw [normalize_title_of_printable s hs]
  have hstrip : ∀ c ∈ (pyStrip s).data, pyIsPrintable c = true :=
    fun c hc => hs c (pyStrip_subset s c hc)
  constructor
  · rw [normalize_title_of_printable _ hstrip, pyStrip_idem]
  · exact pyStrip_idem s

/-- C4 witness: the amended properties at the concrete printable input "ab". -/
theorem normalize_title_amended_witness :
    normalize_title (some (normalize_title (some "ab"))) = normalize_title (some "ab") ∧
    pyStrip (normalize_title (some "ab")) = normalize_title (some "ab") :=
  normalize_title_amended.2.2.2 "ab" (by decide)

/-- C4 counterexample: on `"\x00 abc"` (a non-printable character followed by
a space), `normalize_title` returns `" abc"`, which still has leading
whitespace, and a second application returns `"abc"`: the function is not
idempotent and its output is not always free of leading/trailing whitespace,
refuting those two parts of the claim. -/
theorem normalize_title_cex :
    normalize_title (some "\x00 abc") = " abc" ∧
    normalize_title (some (normalize_title (some "\x00 abc"))) = "abc" ∧
    normalize_title (some (normalize_title (some "\x00 abc")))
      ≠ normalize_title (some "\x00 abc") ∧
    pyStrip (normalize_title (some "\x00 abc")) ≠ normalize_title (some "\x00 abc") :=
  ⟨rfl, rfl, by decide, by decide⟩

/-! ### Lemmas about `extractOne` and dictionary lookup -/

theorem extractOne_foldl_mem (score : String → String → Nat) (query : String) :
    ∀ (choices : List String) (a : Option (String × Nat)) (bs : String × Nat),
      choices.foldl (fun best c =>
        match best with
        | none => some (c, score query c)
        | some bs => if score query c > bs.2 then some (c, score query c) else some bs)
        a = some bs → a = some bs ∨ bs.1 ∈ choices := by
  intro choices
  induction choices with
  | nil => exact fun a bs h => Or.inl h
  | cons c cs ih =>
      intro a bs h
      rcases ih _ bs h with h1 | h1
      · match a with
        | none =>
            simp only [Option.some.injEq] at h1
            exact Or.inr (by simp [← h1])
        | some p =>
            by_cases hgt : score query c > p.2
            · simp only [if_pos hgt, Option.some.injEq] at h1
              exact Or.inr (by simp [← h1])
            · simp only [if_neg hgt, Option.some.injEq] at h1
              exact Or.inl (by rw [h1])
      · exact Or.inr (List.mem_cons_of_mem _ h1)

theorem extractOne_mem (score : String → String → Nat) (query : String)
    (choices : List String) (bs : String × Nat)
    (h : extractOne score query choices = some bs) : bs.1 ∈ choices := by
  rcases extractOne_foldl_mem score query choices none bs h with h1 | h1
  · exact absurd h1 (by simp)
  · exact h1

theorem dictGetEvent_isSome_of_key (d : List (String × Event)) (k : String)
    (hk : k ∈ allMainEventTitles d) : (dictGetEvent d k).isSome := by
  rcases List.mem_map.mp hk with ⟨p, hp, hpk⟩
  have hex : (d.find? (fun q => q.1 == k)).isSome :=
    List.find?_isSome.mpr ⟨p, hp, by simp [hpk]⟩
  rcases Option.isSome_iff_exists.mp hex with ⟨q, hq⟩
  simp [dictGetEvent, hq]

/-- C2: link resolution of a non-empty target title: exact lookup of the
(already normalized) title in the by-title map wins; on an exact miss the
fuzzy best match is returned exactly when its score strictly exceeds 90
(and, when the choice set is the map's key set, that entry exists); with no
candidate above the threshold, or no candidate at all, resolution is
NotFound. -/
theorem link_resolution (score : String → String → Nat)
    (byTitle : List (String × Event)) (titles : List String) (t : String)
    (hne : t ≠ "") :
    ((dictGetEvent byTitle t).isSome →
      resolveNext score byTitle titles t = dictGetEvent byTitle t)
    ∧ (dictGetEvent byTitle t = none →
        (∀ b s, extractOne score t titles = some (b, s) →
          resolveNext score byTitle titles t =
            if 90 < s then dictGetEvent byTitle b else none)
        ∧ (extractOne score t titles = none →
            resolveNext score byTitle titles t = none)
        ∧ (∀ b s, titles = allMainEventTitles byTitle →
            extractOne score t titles = some (b, s) → 90 < s →
            ∃ e, dictGetEvent byTitle b = some e ∧
              resolveNext score byTitle titles t = some e)) := by
  constructor
  · intro hsome
    rcases Option.isSome_iff_exists.mp hsome with ⟨e, he⟩
    simp [resolveNext, he]
  · intro hnone
    refine ⟨fun b s hbs => ?_, fun hno => ?_, fun b s hkeys hbs hgt => ?_⟩
    · simp [resolveNext, hnone, hne, hbs, gt_iff_lt]
    · simp [resolveNext, hnone, hne, hno]
    · have hb : b ∈ titles := extractOne_mem score t titles (b, s) hbs
      have hsome : (dictGetEvent byTitle b).isSome :=
        dictGetEvent_isSome_of_key byTitle b (hkeys ▸ hb)
      rcases Option.isSome_iff_exists.mp hsome with ⟨e, he⟩
      refine ⟨e, he, ?_⟩
      simp [resolveNext, hnone, hne, hbs, hgt, he]

/-- C2 witness: with a one-event corpus titled "Alpha", a constant scorer of
95 and target "Alphx", the exact lookup misses, the fuzzy best match clears
the threshold and resolution returns the "Alpha" entry. -/
theorem link_resolution_witness :
    resolveNext (fun _ _ => 95) (eventsByTitle [mkEvent "1" "Alpha" none none])
      (allMainEventTitles (eventsByTitle [mkEvent "1" "Alpha" none none]))
      "Alphx" = some (mkEvent "1" "Alpha" none none) := by
  have h := (link_resolution (fun _ _ => 95)
    (eventsByTitle [mkEvent "1" "Alpha" none none])
    (allMainEventTitles (eventsByTitle [mkEvent "1" "Alpha" none none]))
    "Alphx" (by decide)).2 (by rfl)
  have h2 := h.1 "Alpha" 95 (by rfl)
  rw [h2]
  rfl

/-! ### Invariants of the chain walk -/

/-- The chain walk appends exactly the normalized titles of its chain (newest
first) to `processed_titles`, its chain's normalized titles are pairwise
distinct, and none of them was processed before the walk started. -/
theorem walkChain_state (score : String → String → Nat)
    (byTitle : List (String × Event)) (titles : List String) :
    ∀ (fuel : Nat) (processed : List String) (cur : Event),
      (walkChain score byTitle titles fuel processed cur).2
        = ((walkChain score byTitle titles fuel processed cur).1.map normTitle).reverse
            ++ processed
      ∧ ((walkChain score byTitle titles fuel processed cur).1.map normTitle).Nodup
      ∧ ∀ t ∈ (walkChain score byTitle titles fuel processed cur).1.map normTitle,
          t ∉ processed := by
  intro fuel
  induction fuel with
  | zero => exact fun processed cur => ⟨rfl, List.nodup_nil, by simp [walkChain]⟩
  | succ fuel ih =>
      intro processed cur
      by_cases hc : normTitle cur ∈ processed
      · simp [walkChain, if_pos hc]
      · simp only [walkChain, if_neg hc]
        by_cases hemp : normalize_title (pyDictGet cur.navigation "next_event") = ""
        · simp [hemp, hc]
        · simp only [hemp, if_false]
          rcases hres : resolveNext score byTitle titles
              (normalize_title (pyDictGet cur.navigation "next_event")) with _ | ne
          · simp [hc]
          · rcases ih (normTitle cur :: processed) ne with ⟨h1, h2, h3⟩
            refine ⟨?_, ?_, ?_⟩
            · simp only [List.map_cons, List.reverse_cons, List.append_assoc,
                List.singleton_append]
              exact h1
            · refine List.nodup_cons.mpr ⟨fun hmem => ?_, h2⟩
              exact h3 _ hmem (List.mem_cons_self _ _)
            · intro t ht
              rcases List.mem_cons.mp ht with h | h
              · rw [h]
                exact hc
              · intro hmem
                exact h3 t h (List.mem_cons_of_mem _ hmem)

theorem dictInsert_mem (d : List (String × Event)) (k : String) (v : Event)
    (q : String × Event) (hq : q ∈ dictInsert d k v) : q ∈ d ∨ q = (k, v) := by
  unfold dictInsert at hq
  by_cases h : (d.find? (fun p => p.1 == k)).isSome
  · rw [if_pos h] at hq
    rcases List.mem_map.mp hq with ⟨p, hp, hpq⟩
    by_cases hpk : p.1 = k
    · right
      rw [← hpq]
      simp [hpk]
    · left
      rw [← hpq]
      simpa [hpk] using hp
  · rw [if_neg h] at hq
    rcases List.mem_append.mp hq with h1 | h1
    · exact Or.inl h1
    · exact Or.inr (List.mem_singleton.mp h1)

theorem eventsByTitle_mem (es : List Event) (q : String × Event)
    (hq : q ∈ eventsByTitle es) : q.2 ∈ es := by
  suffices h : ∀ (l : List Event) (d : List (String × Event)),
      q ∈ l.foldl (fun d e => dictInsert d e.event_title e) d →
      q ∈ d ∨ q.2 ∈ l by
    rcases h es [] hq with h1 | h1
    · exact absurd h1 (List.not_mem_nil q)
    · exact h1
  intro l
  induction l with
  | nil => exact fun d hd => Or.inl hd
  | cons e l ihl =>
      intro d hd
      rcases ihl (dictInsert d e.event_title e) hd with h1 | h1
      · rcases dictInsert_mem d e.event_title e q h1 with h2 | h2
        · exact Or.inl h2
        · right
          rw [h2]
          exact List.mem_cons_self _ _
      · exact Or.inr (List.mem_cons_of_mem _ h1)

theorem dictGetEvent_mem (d : List (String × Event)) (k : String) (e : Event)
    (h : dictGetEvent d k = some e) : ∃ q ∈ d, q.2 = e := by
  unfold dictGetEvent at h
  rcases hf : d.find? (fun p => p.1 == k) with _ | q
  · rw [hf] at h
    exact absurd h (by simp)
  · rw [hf] at h
    exact ⟨q, List.mem_of_find?_eq_some hf, by simpa using h⟩

theorem resolveNext_mem (score : String → String → Nat) (es : List Event)
    (titles : List String) (t : String) (e : Event)
    (h : resolveNext score (eventsByTitle es) titles t = some e) : e ∈ es := by
  rcases hd : dictGetEvent (eventsByTitle es) t with _ | e1
  · by_cases ht : t = ""
    · subst ht
      simp [resolveNext, hd] at h
    · rcases hx : extractOne score t titles with _ | bm
      · simp [resolveNext, hd, ht, hx] at h
      · by_cases h90 : bm.2 > 90
        · simp only [resolveNext, hd, ht, hx, h90, if_true, ne_eq,
            not_false_eq_true, if_pos] at h
          rcases dictGetEvent_mem _ _ _ h with ⟨q, hq, hqe⟩
          exact hqe ▸ eventsByTitle_mem es q hq
        · simp [resolveNext, hd, ht, hx, h90] at h
  · simp only [resolveNext, hd] at h
    rcases dictGetEvent_mem _ _ _ hd with ⟨q, hq, hqe⟩
    have he1 : e1 = e := by injection h
    exact he1 ▸ hqe ▸ eventsByTitle_mem es q hq

/-- Every event the walk places into a chain is a loaded corpus event. -/
theorem walkChain_mem (score : String → String → Nat) (es : List Event)
    (titles : List String) :
    ∀ (fuel : Nat) (processed : List String) (cur : Event), cur ∈ es →
      ∀ e ∈ (walkChain score (eventsByTitle es) titles fuel processed cur).1,
        e ∈ es := by
  intro fuel
  induction fuel with
  | zero => simp [walkChain]
  | succ fuel ih =>
      intro processed cur hcur e he
      by_cases hc : normTitle cur ∈ processed
      · simp [walkChain, if_pos hc] at he
      · simp only [walkChain, if_neg hc] at he
        by_cases hemp : normalize_title (pyDictGet cur.navigation "next_event") = ""
        · simp only [hemp, if_true, List.mem_singleton, if_pos rfl] at he
          exact he ▸ hcur
        · simp only [hemp, if_false] at he
          rcases hres : resolveNext score (eventsByTitle es) titles
              (normalize_title (pyDictGet cur.navigation "next_event")) with _ | ne
          · rw [hres] at he
            simp only [List.mem_singleton] at he
            exact he ▸ hcur
          · rw [hres] at he
            rcases List.mem_cons.mp he with h | h
            · exact h ▸ hcur
            · exact ih _ ne (resolveNext_mem score es titles _ ne hres) e h

/-! ### Termination: the walk is fuel-stable beyond the corpus size -/

/-- The finite pool of normalized titles a walk over `es` can ever visit. -/
def titlePool (es : List Event) : Finset String := (es.map normTitle).toFinset

theorem walkChain_fuel_stable (score : String → String → Nat) (es : List Event)
    (titles : List String) :
    ∀ (n f g : Nat) (processed : List String) (cur : Event),
      cur ∈ es →
      (titlePool es \ processed.toFinset).card ≤ n → n < f → n < g →
      walkChain score (eventsByTitle es) titles f processed cur
        = walkChain score (eventsByTitle es) titles g processed cur := by
  intro n
  induction n with
  | zero =>
      intro f g processed cur hcur hcard hf hg
      have hmem : normTitle cur ∈ processed := by
        have hpool : normTitle cur ∈ titlePool es :=
          List.mem_toFinset.mpr (List.mem_map_of_mem _ hcur)
        by_contra hnot
        have hin : normTitle cur ∈ titlePool es \ processed.toFinset :=
          Finset.mem_sdiff.mpr ⟨hpool, fun hm => hnot (List.mem_toFinset.mp hm)⟩
        have hpos := Finset.card_pos.mpr ⟨_, hin⟩
        omega
      obtain ⟨f1, rfl⟩ : ∃ f1, f = f1 + 1 := ⟨f - 1, by omega⟩
      obtain ⟨g1, rfl⟩ : ∃ g1, g = g1 + 1 := ⟨g - 1, by omega⟩
      simp [walkChain, if_pos hmem]
  | succ n ih =>
      intro f g processed cur hcur hcard hf hg
      obtain ⟨f1, rfl⟩ : ∃ f1, f = f1 + 1 := ⟨f - 1, by omega⟩
      obtain ⟨g1, rfl⟩ : ∃ g1, g = g1 + 1 := ⟨g - 1, by omega⟩
      by_cases hc : normTitle cur ∈ processed
      · simp [walkChain, if_pos hc]
      · simp only [walkChain, if_neg hc]
        by_cases hemp : normalize_title (pyDictGet cur.navigation "next_event") = ""
        · simp [hemp]
        · simp only [hemp, if_false]
          rcases hres : resolveNext score (eventsByTitle es) titles
              (normalize_title (pyDictGet cur.navigation "next_event")) with _ | ne
          · rfl
          · have hne : ne ∈ es := resolveNext_mem score es titles _ ne hres
            have hcard2 :
                (titlePool es \ (normTitle cur :: processed).toFinset).card ≤ n := by
              have hx : normTitle cur ∈ titlePool es \ processed.toFinset :=
                Finset.mem_sdiff.mpr
                  ⟨List.mem_toFinset.mpr (List.mem_map_of_mem _ hcur),
                   fun hm => hc (List.mem_toFinset.mp hm)⟩
              rw [List.toFinset_cons, Finset.sdiff_insert,
                Finset.card_erase_of_mem hx]
              omega
            have heq := ih f1 g1 (normTitle cur :: processed) ne hne hcard2
              (by omega) (by omega)
            exact congrArg (fun r : List Event × List String => (cur :: r.1, r.2)) heq

theorem foldl_chains_fuel_stable (score : String → String → Nat) (es : List Event)
    (titles : List String) (f g : Nat) (hf : es.length < f) (hg : es.length < g) :
    ∀ (starts : List Event) (acc : List (List Event) × List String),
      (∀ se ∈ starts, se ∈ es) →
      starts.foldl (fun acc se =>
        if normTitle se ∈ acc.2 then acc
        else
          let r := walkChain score (eventsByTitle es) titles f acc.2 se
          (acc.1 ++ [r.1], r.2)) acc
      = starts.foldl (fun acc se =>
        if normTitle se ∈ acc.2 then acc
        else
          let r := walkChain score (eventsByTitle es) titles g acc.2 se
          (acc.1 ++ [r.1], r.2)) acc := by
  intro starts
  induction starts with
  | nil => exact fun acc h => rfl
  | cons se starts ihs =>
      intro acc h
      have hse : se ∈ es := h se (List.mem_cons_self _ _)
      have hcard : (titlePool es \ acc.2.toFinset).card ≤ es.length := by
        calc (titlePool es \ acc.2.toFinset).card ≤ (titlePool es).card :=
              Finset.card_le_card (Finset.sdiff_subset)
          _ ≤ (es.map normTitle).length := List.toFinset_card_le _
          _ = es.length := List.length_map _ _
      have hwalk := walkChain_fuel_stable score es titles es.length f g acc.2 se
        hse hcard hf hg
      simp only [List.foldl_cons, hwalk]
      exact ihs _ (fun x hx => h x (List.mem_cons_of_mem _ hx))

theorem chainsAndProcessed_fuel_stable (score : String → String → Nat)
    (es : List Event) (f g : Nat) (hf : es.length < f) (hg : es.length < g) :
    chainsAndProcessed score es f = chainsAndProcessed score es g :=
  foldl_chains_fuel_stable score es (allMainEventTitles (eventsByTitle es)) f g hf hg
    (startingEvents es) ([], []) (fun _ hse => List.mem_of_mem_filter hse)

/-- C3: cycle safety and termination.  For every finite corpus, any fuel of at
least `es.length + 1` gives the run the source's unbounded `while` loop
computes (the loop reaches a break within that bound, so it terminates); a
walk that reaches an already-visited normalized title stops without re-adding
it, so no chain repeats a normalized title; and the self-loop corpus
{A with next = A} yields exactly one chain [A] of length 1, the cycle being
cut on the second visit of A. -/
theorem chain_walk_terminates :
    (∀ (score : String → String → Nat) (es : List Event) (f : Nat),
        es.length + 1 ≤ f →
        chainsAndProcessed score es f = chainsAndProcessed score es (es.length + 1))
    ∧ (∀ (score : String → String → Nat) (byTitle : List (String × Event))
        (titles processed : List String) (fuel : Nat) (cur : Event),
        ((walkChain score byTitle titles fuel processed cur).1.map normTitle).Nodup)
    ∧ ∀ score : String → String → Nat,
        buildChains score [mkEvent "1" "A" none (some "A")]
          = [[mkEvent "1" "A" none (some "A")]] := by
  refine ⟨?_, ?_, ?_⟩
  · intro score es f hf
    exact chainsAndProcessed_fuel_stable score es f (es.length + 1)
      (by omega) (by omega)
  · intro score byTitle titles processed fuel cur
    exact (walkChain_state score byTitle titles fuel processed cur).2.1
  · intro score
    rfl

/-- C3 witness: the fuel-stability statement applied to the concrete self-loop
corpus with fuel 7. -/
theorem chain_walk_terminates_witness :
    chainsAndProcessed (fun _ _ => 0) [mkEvent "1" "A" none (some "A")] 7
      = chainsAndProcessed (fun _ _ => 0) [mkEvent "1" "A" none (some "A")] 2 :=
  chain_walk_terminates.1 (fun _ _ => 0) [mkEvent "1" "A" none (some "A")] 7
    (by decide)

/-! ### The assembler and the shape of the final timeline -/

theorem assembleFrom_map_index (tl : List Event) :
    ∀ i : Nat, (assembleFrom i tl).map (fun e => e.timeline_index)
      = (List.range' i tl.length).map (fun n => some (Int.ofNat n)) := by
  induction tl with
  | nil => intro i; rfl
  | cons e tl ih =>
      intro i
      simp only [assembleFrom, List.map_cons, List.length_cons, List.range'_succ]
      rw [ih (i + 1)]
      rfl

/-- The accumulator invariant of the outer chain loop: `processed_titles` is
exactly the normalized titles of the flattened chains (newest first), and
those titles are pairwise distinct. -/
theorem foldl_chains_invariant (score : String → String → Nat)
    (byTitle : List (String × Event)) (titles : List String) (fuel : Nat) :
    ∀ (starts : List Event) (acc : List (List Event) × List String),
      acc.2 = (acc.1.flatten.map normTitle).reverse →
      (acc.1.flatten.map normTitle).Nodup →
      (starts.foldl (fun acc se =>
          if normTitle se ∈ acc.2 then acc
          else
            let r := walkChain score byTitle titles fuel acc.2 se
            (acc.1 ++ [r.1], r.2)) acc).2
        = ((starts.foldl (fun acc se =>
            if normTitle se ∈ acc.2 then acc
            else
              let r := walkChain score byTitle titles fuel acc.2 se
              (acc.1 ++ [r.1], r.2)) acc).1.flatten.map normTitle).reverse
      ∧ ((starts.foldl (fun acc se =>
          if normTitle se ∈ acc.2 then acc
          else
            let r := walkChain score byTitle titles fuel acc.2 se
            (acc.1 ++ [r.1], r.2)) acc).1.flatten.map normTitle).Nodup := by
  intro starts
  induction starts with
  | nil => exact fun acc h1 h2 => ⟨h1, h2⟩
  | cons se starts ihs =>
      intro acc h1 h2
      simp only [List.foldl_cons]
      by_cases hm : normTitle se ∈ acc.2
      · rw [if_pos hm]
        exact ihs acc h1 h2
      · rw [if_neg hm]
        rcases walkChain_state score byTitle titles fuel acc.2 se with ⟨w1, w2, w3⟩
        apply ihs
        · simp only [List.flatten_append, List.flatten_cons, List.flatten_nil,
            List.append_nil, List.map_append, List.reverse_append]
          rw [← h1]
          exact w1
        · simp only [List.flatten_append, List.flatten_cons, List.flatten_nil,
            List.append_nil, List.map_append]
          rw [List.nodup_append]
          refine ⟨h2, w2, fun t ht hti => ?_⟩
          have ht2 : t ∈ acc.2 := by
            rw [h1]
            exact List.mem_reverse.mpr ht
          exact w3 t hti ht2

/-- C5: index contiguity.  The `timeline_index` values over the assembled
output are exactly `0, 1, ..., placed_count - 1` in order (so no gaps and no
repeats), and the flattened timeline holds pairwise-distinct normalized
titles, so no in-memory event receives two writes. -/
theorem index_contiguity (score : String → String → Nat) (es : List Event) :
    (assemble (fullTimeline score es)).map (fun e => e.timeline_index)
      = (List.range (placedCount score es)).map (fun n => some (Int.ofNat n))
    ∧ ((fullTimeline score es).map normTitle).Nodup := by
  constructor
  · rw [assemble, assembleFrom_map_index, placedCount, List.range_eq_range']
  · have h := foldl_chains_invariant score (eventsByTitle es)
      (allMainEventTitles (eventsByTitle es)) (es.length + 1)
      (startingEvents es) ([], []) rfl List.nodup_nil
    exact h.2

/-! ### The frame condition -/

theorem chains_mem (score : String → String → Nat) (es : List Event)
    (titles : List String) (fuel : Nat) :
    ∀ (starts : List Event) (acc : List (List Event) × List String),
      (∀ se ∈ starts, se ∈ es) →
      (∀ c ∈ acc.1, ∀ e ∈ c, e ∈ es) →
      ∀ c ∈ (starts.foldl (fun acc se =>
          if normTitle se ∈ acc.2 then acc
          else
            let r := walkChain score (eventsByTitle es) titles fuel acc.2 se
            (acc.1 ++ [r.1], r.2)) acc).1, ∀ e ∈ c, e ∈ es := by
  intro starts
  induction starts with
  | nil => exact fun acc _ hacc => hacc
  | cons se starts ihs =>
      intro acc hs hacc
      simp only [List.foldl_cons]
      by_cases hm : normTitle se ∈ acc.2
      · rw [if_pos hm]
        exact ihs acc (fun x hx => hs x (List.mem_cons_of_mem _ hx)) hacc
      · rw [if_neg hm]
        apply ihs _ (fun x hx => hs x (List.mem_cons_of_mem _ hx))
        intro c hc e he
        rcases List.mem_append.mp hc with h | h
        · exact hacc c h e he
        · rw [List.mem_singleton.mp h] at he
          exact walkChain_mem score es titles fuel acc.2 se
            (hs se (List.mem_cons_self _ _)) e he

theorem assembleFrom_getElem (tl : List Event) :
    ∀ (i j : Nat) (e : Event), tl[j]? = some e →
      (assembleFrom i tl)[j]? = some { e with timeline_index := some ((i + j : Nat) : Int) } := by
  induction tl with
  | nil => intro i j e h; simp at h
  | cons x tl ih =>
      intro i j e h
      cases j with
      | zero =>
          simp only [List.getElem?_cons_zero, Option.some.injEq] at h
          simp [assembleFrom, ← h]
      | succ j =>
          simp only [List.getElem?_cons_succ] at h
          have := ih (i + 1) j e h
          simp only [assembleFrom, List.getElem?_cons_succ]
          rw [this]
          have harith : i + 1 + j = i + (j + 1) := by omega
          rw [harith]

/-- C9: frame condition.  Every event the Chain Builder places into a chain is
the loaded corpus event itself, unmodified (in particular its
`navigation.previous`/`navigation.next` are never written), and the assembler
rewrites exactly the `timeline_index` field: position `i` of the output is
the timeline's event at `i` with only `timeline_index` replaced by `i`. -/
theorem frame_condition :
    (∀ (score : String → String → Nat) (es : List Event) (e : Event),
        e ∈ fullTimeline score es → e ∈ es)
    ∧ ∀ (tl : List Event) (i : Nat) (e : Event), tl[i]? = some e →
        (assemble tl)[i]? = some { e with timeline_index := some (i : Int) } := by
  constructor
  · intro score es e he
    rcases List.mem_flatten.mp he with ⟨c, hc, hec⟩
    exact chains_mem score es (allMainEventTitles (eventsByTitle es))
      (es.length + 1) (startingEvents es) ([], [])
      (fun _ hse => List.mem_of_mem_filter hse) (by simp) c hc e hec
  · intro tl i e h
    have := assembleFrom_getElem tl 0 i e h
    simpa [assemble] using this

/-- C9 witness: the frame condition at a concrete one-event corpus and at
index 0 of a concrete assembly. -/
theorem frame_condition_witness :
    mkEvent "1" "A" none none ∈ [mkEvent "1" "A" none none]
    ∧ (assemble [mkEvent "1" "A" none none])[0]?
        = some { mkEvent "1" "A" none none with timeline_index := some 0 } := by
  constructor
  · apply frame_condition.1 (fun _ _ => 0) [mkEvent "1" "A" none none]
    show mkEvent "1" "A" none none ∈ fullTimeline (fun _ _ => 0) [mkEvent "1" "A" none none]
    have h : fullTimeline (fun _ _ => 0) [mkEvent "1" "A" none none]
        = [mkEvent "1" "A" none none] := rfl
    rw [h]
    exact List.mem_cons_self _ _
  · exact frame_condition.2 [mkEvent "1" "A" none none] 0 (mkEvent "1" "A" none none) rfl

/-! ### Idempotence: a run only rewrites `timeline_index`, and the pipeline
ignores that field, so a second run over the once-run corpus reproduces the
first output byte for byte. -/

/-- An arbitrary rewrite of the `timeline_index` field (what a previous
assembly run, or any such run, does to the in-memory corpus). -/
def reindex (g : Event → Option Int) (e : Event) : Event :=
  { e with timeline_index := g e }

theorem dictInsert_reindex (g : Event → Option Int) (d : List (String × Event))
    (k : String) (v : Event) :
    dictInsert (d.map (fun p => (p.1, reindex g p.2))) k (reindex g v)
      = (dictInsert d k v).map (fun p => (p.1, reindex g p.2)) := by
  unfold dictInsert
  rw [List.find?_map]
  have hpred : ((fun p : String × Event => p.1 == k) ∘
      fun p : String × Event => (p.1, reindex g p.2))
      = fun p : String × Event => p.1 == k := rfl
  rw [hpred]
  by_cases h : (d.find? (fun p => p.1 == k)).isSome
  · rw [if_pos (by simpa using h), if_pos h, List.map_map, List.map_map]
    apply List.map_congr_left
    intro p _
    by_cases hp : p.1 = k
    · simp [Function.comp, hp, reindex]
    · simp [Function.comp, hp]
  · rw [if_neg (by simpa using h), if_neg h, List.map_append]
    rfl

theorem eventsByTitle_reindex (g : Event → Option Int) (es : List Event) :
    eventsByTitle (es.map (reindex g))
      = (eventsByTitle es).map (fun p => (p.1, reindex g p.2)) := by
  suffices h : ∀ (l : List Event) (d : List (String × Event)),
      (l.map (reindex g)).foldl (fun d e => dictInsert d e.event_title e)
          (d.map (fun p => (p.1, reindex g p.2)))
        = (l.foldl (fun d e => dictInsert d e.event_title e) d).map
            (fun p => (p.1, reindex g p.2)) by
    exact h es []
  intro l
  induction l with
  | nil => exact fun d => rfl
  | cons e l ihl =>
      intro d
      simp only [List.map_cons, List.foldl_cons]
      rw [show (reindex g e).event_title = e.event_title from rfl,
        dictInsert_reindex]
      exact ihl _

theorem dictGetEvent_reindex (g : Event → Option Int) (d : List (String × Event))
    (k : String) :
    dictGetEvent (d.map (fun p => (p.1, reindex g p.2))) k
      = (dictGetEvent d k).map (reindex g) := by
  unfold dictGetEvent
  rw [List.find?_map]
  have hpred : ((fun p : String × Event => p.1 == k) ∘
      fun p : String × Event => (p.1, reindex g p.2))
      = fun p : String × Event => p.1 == k := rfl
  rw [hpred, Option.map_map, Option.map_map]
  rfl

theorem allMainEventTitles_reindex (g : Event → Option Int)
    (d : List (String × Event)) :
    allMainEventTitles (d.map (fun p => (p.1, reindex g p.2)))
      = allMainEventTitles d := by
  unfold allMainEventTitles
  rw [List.map_map]
  rfl

theorem resolveNext_reindex (g : Event → Option Int) (score : String → String → Nat)
    (byTitle : List (String × Event)) (titles : List String) (t : String) :
    resolveNext score (byTitle.map (fun p => (p.1, reindex g p.2))) titles t
      = (resolveNext score byTitle titles t).map (reindex g) := by
  rcases hd : dictGetEvent byTitle t with _ | e
  · by_cases ht : t = ""
    · subst ht
      simp [resolveNext, dictGetEvent_reindex, hd]
    · rcases hx : extractOne score t titles with _ | bm
      · simp [resolveNext, dictGetEvent_reindex, hd, ht, hx]
      · by_cases h90 : bm.2 > 90
        · simp [resolveNext, dictGetEvent_reindex, hd, ht, hx, h90]
        · simp [resolveNext, dictGetEvent_reindex, hd, ht, hx, h90]
  · simp [resolveNext, dictGetEvent_reindex, hd]

theorem walkChain_reindex (g : Event → Option Int) (score : String → String → Nat)
    (byTitle : List (String × Event)) (titles : List String) :
    ∀ (fuel : Nat) (processed : List String) (cur : Event),
      walkChain score (byTitle.map (fun p => (p.1, reindex g p.2))) titles fuel
          processed (reindex g cur)
        = ((walkChain score byTitle titles fuel processed cur).1.map (reindex g),
           (walkChain score byTitle titles fuel processed cur).2) := by
  intro fuel
  induction fuel with
  | zero => exact fun processed cur => rfl
  | succ fuel ih =>
      intro processed cur
      have hnorm : normTitle (reindex g cur) = normTitle cur := rfl
      have hnav : (reindex g cur).navigation = cur.navigation := rfl
      by_cases hc : normTitle cur ∈ processed
      · simp [walkChain, hnorm, hnav, if_pos hc]
      · simp only [walkChain, hnorm, hnav, if_neg hc]
        by_cases hemp : normalize_title (pyDictGet cur.navigation "next_event") = ""
        · simp [hemp]
        · simp only [hemp, if_false]
          rw [resolveNext_reindex]
          rcases resolveNext score byTitle titles
              (normalize_title (pyDictGet cur.navigation "next_event")) with _ | ne
          · rfl
          · simp only [Option.map_some']
            rw [ih (normTitle cur :: processed) ne]
            rfl

/-- The whole chain-building stage commutes with a `timeline_index` rewrite of
the corpus: the chains are the same events up to that rewrite, and the
visited-set bookkeeping is identical. -/
theorem chainsAndProcessed_reindex (g : Event → Option Int)
    (score : String → String → Nat) (es : List Event) (fuel : Nat) :
    chainsAndProcessed score (es.map (reindex g)) fuel
      = ((chainsAndProcessed score es fuel).1.map (fun c => c.map (reindex g)),
         (chainsAndProcessed score es fuel).2) := by
  unfold chainsAndProcessed
  rw [eventsByTitle_reindex, allMainEventTitles_reindex]
  have hstarts : startingEvents (es.map (reindex g))
      = (startingEvents es).map (reindex g) := by
    unfold startingEvents
    rw [eventsByTitle_reindex, allMainEventTitles_reindex, List.filter_map]
    rfl
  rw [hstarts]
  suffices h : ∀ (starts : List Event) (acc : List (List Event) × List String),
      (starts.map (reindex g)).foldl (fun acc se =>
        if normTitle se ∈ acc.2 then acc
        else
          let r := walkChain score
            ((eventsByTitle es).map (fun p => (p.1, reindex g p.2)))
            (allMainEventTitles (eventsByTitle es)) fuel acc.2 se
          (acc.1 ++ [r.1], r.2))
        (acc.1.map (fun c => c.map (reindex g)), acc.2)
      = ((starts.foldl (fun acc se =>
          if normTitle se ∈ acc.2 then acc
          else
            let r := walkChain score (eventsByTitle es)
              (allMainEventTitles (eventsByTitle es)) fuel acc.2 se
            (acc.1 ++ [r.1], r.2)) acc).1.map (fun c => c.map (reindex g)),
         (starts.foldl (fun acc se =>
          if normTitle se ∈ acc.2 then acc
          else
            let r := walkChain score (eventsByTitle es)
              (allMainEventTitles (eventsByTitle es)) fuel acc.2 se
            (acc.1 ++ [r.1], r.2)) acc).2) by
    exact h (startingEvents es) ([], [])
  intro starts
  induction starts with
  | nil => exact fun acc => rfl
  | cons se starts ihs =>
      intro acc
      simp only [List.map_cons, List.foldl_cons]
      have hnorm : normTitle (reindex g se) = normTitle se := rfl
      by_cases hm : normTitle se ∈ acc.2
      · rw [hnorm, if_pos hm, if_pos hm]
        exact ihs acc
      · rw [hnorm, if_neg hm, if_neg hm]
        simp only [walkChain_reindex g score (eventsByTitle es)
          (allMainEventTitles (eventsByTitle es)) fuel acc.2 se]
        have := ihs (acc.1 ++ [(walkChain score (eventsByTitle es)
          (allMainEventTitles (eventsByTitle es)) fuel acc.2 se).1],
          (walkChain score (eventsByTitle es)
            (allMainEventTitles (eventsByTitle es)) fuel acc.2 se).2)
        simp only [List.map_append, List.map_cons, List.map_nil] at this ⊢
        exact this

theorem assembleFrom_reindex (g : Event → Option Int) (tl : List Event) :
    ∀ i : Nat, assembleFrom i (tl.map (reindex g)) = assembleFrom i tl := by
  induction tl with
  | nil => exact fun i => rfl
  | cons e tl ih =>
      intro i
      simp only [List.map_cons, assembleFrom]
      rw [ih (i + 1)]
      rfl

theorem assembleFrom_idem (tl : List Event) :
    ∀ i : Nat, assembleFrom i (assembleFrom i tl) = assembleFrom i tl := by
  induction tl with
  | nil => exact fun i => rfl
  | cons e tl ih =>
      intro i
      simp only [assembleFrom]
      rw [ih (i + 1)]

/-- C8: idempotence and determinism of reconstruction.  A run's only corpus
mutation is the `timeline_index` write (C9); rewriting that field arbitrarily
(in particular, the rewrite a first run performs) leaves the chain build and
the assembled output unchanged, so a second run over the same corpus object
produces identical ordered output; and assembling an already assembled chain
list assigns the identical indices again. -/
theorem run_idempotent :
    (∀ (score : String → String → Nat) (es : List Event) (g : Event → Option Int),
        assemble (fullTimeline score (es.map (reindex g)))
          = assemble (fullTimeline score es))
    ∧ ∀ tl : List Event, assemble (assemble tl) = assemble tl := by
  constructor
  · intro score es g
    unfold fullTimeline buildChains
    rw [show (es.map (reindex g)).length = es.length from List.length_map es _,
      chainsAndProcessed_reindex]
    have hflat : ((chainsAndProcessed score es (es.length + 1)).1.map
        (fun c => c.map (reindex g))).flatten
        = (chainsAndProcessed score es (es.length + 1)).1.flatten.map (reindex g) := by
      exact Eq.symm (List.map_flatten (reindex g)
        (chainsAndProcessed score es (es.length + 1)).1)
    rw [hflat]
    unfold assemble
    exact assembleFrom_reindex g _ 0
  · intro tl
    exact assembleFrom_idem tl 0

/-! ### Start candidates and the by-title dictionary -/

theorem dictInsert_keys_mem (d : List (String × Event)) (k : String) (v : Event)
    (t : String) :
    t ∈ allMainEventTitles (dictInsert d k v)
      ↔ t ∈ allMainEventTitles d ∨ t = k := by
  unfold dictInsert allMainEventTitles
  by_cases h : (d.find? (fun p => p.1 == k)).isSome
  · rw [if_pos h, List.map_map]
    have hfst : ((fun p : String × Event => p.1) ∘
        fun p : String × Event => if p.1 == k then (k, v) else p)
        = fun p : String × Event => p.1 := by
      funext p
      by_cases hp : p.1 = k <;> simp [Function.comp, hp]
    rw [hfst]
    have hkey : k ∈ d.map (fun p => p.1) := by
      rcases Option.isSome_iff_exists.mp h with ⟨q, hq⟩
      have hqd := List.mem_of_find?_eq_some hq
      have hqk : q.1 = k := by simpa using List.find?_some hq
      exact hqk ▸ List.mem_map_of_mem _ hqd
    constructor
    · exact Or.inl
    · rintro (hm | rfl)
      · exact hm
      · exact hkey
  · rw [if_neg h, List.map_append]
    simp [or_comm, eq_comm]

theorem mem_keys_iff (es : List Event) (t : String) :
    t ∈ allMainEventTitles (eventsByTitle es) ↔ ∃ ev ∈ es, ev.event_title = t := by
  suffices h : ∀ (l : List Event) (d : List (String × Event)),
      t ∈ allMainEventTitles (l.foldl (fun d e => dictInsert d e.event_title e) d)
        ↔ t ∈ allMainEventTitles d ∨ ∃ ev ∈ l, ev.event_title = t by
    rw [eventsByTitle, h es []]
    simp [allMainEventTitles]
  intro l
  induction l with
  | nil => simp
  | cons e l ihl =>
      intro d
      simp only [List.foldl_cons]
      rw [ihl (dictInsert d e.event_title e), dictInsert_keys_mem]
      constructor
      · rintro ((hm | rfl) | hm)
        · exact Or.inl hm
        · exact Or.inr ⟨e, List.mem_cons_self _ _, rfl⟩
        · rcases hm with ⟨ev, hev, hevt⟩
          exact Or.inr ⟨ev, List.mem_cons_of_mem _ hev, hevt⟩
      · rintro (hm | ⟨ev, hev, hevt⟩)
        · exact Or.inl (Or.inl hm)
        · rcases List.mem_cons.mp hev with h1 | h1
          · exact Or.inl (Or.inr (by rw [← hevt, h1]))
          · exact Or.inr ⟨ev, h1, hevt⟩

/-- Start-candidate selection as claim C1's spec sentence describes it: the
raw previous reference is put through the Link Resolver (normalize; empty is a
terminus; exact lookup; fuzzy above 90) and the event is selected exactly when
resolution yields NotFound.  Stated from the spec's words, solely to compare
against the source's `isStartCandidate`. -/
def isStartCandidateSpec (score : String → String → Nat)
    (byTitle : List (String × Event)) (titles : List String) (e : Event) : Bool :=
  let t := normalize_title (pyDictGet e.navigation "previous_event")
  if t = "" then true else (resolveNext score byTitle titles t).isNone

/-- C1 counterexample: in the corpus {Alpha, Beta} where Beta's previous is
"Alpha " (trailing space), the Link Resolver resolves that reference (its
normalization is an exact corpus title, so resolution is not NotFound), yet
the program still selects Beta as a start candidate, because the source tests
the raw string by plain membership with no normalization or fuzzy matching:
the claimed iff fails at this input. -/
theorem start_candidate_cex :
    startingEvents
        [mkEvent "1" "Alpha" none none, mkEvent "2" "Beta" (some "Alpha ") none]
      = [mkEvent "1" "Alpha" none none, mkEvent "2" "Beta" (some "Alpha ") none]
    ∧ isStartCandidateSpec (fun _ _ => 0)
        (eventsByTitle
          [mkEvent "1" "Alpha" none none, mkEvent "2" "Beta" (some "Alpha ") none])
        (allMainEventTitles (eventsByTitle
          [mkEvent "1" "Alpha" none none, mkEvent "2" "Beta" (some "Alpha ") none]))
        (mkEvent "2" "Beta" (some "Alpha ") none) = false :=
  ⟨rfl, rfl⟩

/-- C1 (amended): an Event is selected as a chain-start candidate iff its raw
`navigation.previous` value is not the exact title of any loaded event — a
plain membership test on the unnormalized string, with no normalization and no
fuzzy matching; an absent/None previous always qualifies. -/
theorem start_candidates_amended (es : List Event) (e : Event) :
    e ∈ startingEvents es ↔
      e ∈ es ∧ ∀ t, pyDictGet e.navigation "previous_event" = some t →
        ¬ ∃ ev ∈ es, ev.event_title = t := by
  rw [startingEvents, List.mem_filter]
  constructor
  · rintro ⟨hmem, hcand⟩
    refine ⟨hmem, fun t ht hex => ?_⟩
    rw [isStartCandidate, ht] at hcand
    have htitles : t ∈ allMainEventTitles (eventsByTitle es) :=
      (mem_keys_iff es t).mpr hex
    simp at hcand
    exact hcand htitles
  · rintro ⟨hmem, hprev⟩
    refine ⟨hmem, ?_⟩
    rw [isStartCandidate]
    rcases ht : pyDictGet e.navigation "previous_event" with _ | t
    · rfl
    · have hnot : t ∉ allMainEventTitles (eventsByTitle es) := by
        intro hmem2
        exact hprev t ht ((mem_keys_iff es t).mp hmem2)
      simp [hnot]

/-! ### Duplicate titles: the dict comprehension keeps the last occurrence -/

theorem find_map_key_eq (k : String) (v : Event) :
    ∀ d : List (String × Event), (d.find? (fun p => p.1 == k)).isSome →
      (d.map (fun p => if p.1 == k then (k, v) else p)).find? (fun p => p.1 == k)
        = some (k, v) := by
  intro d
  induction d with
  | nil => intro h; simp at h
  | cons p d ih =>
      intro h
      by_cases hp : p.1 = k
      · simp [List.find?_cons, hp]
      · have h2 : ((d.find? (fun p => p.1 == k)).isSome) := by
          simpa [List.find?_cons, hp] using h
        simpa [List.find?_cons, hp] using ih h2

theorem find_map_key_ne (k : String) (v : Event) (t : String) (hne : t ≠ k) :
    ∀ d : List (String × Event),
      (d.map (fun p => if p.1 == k then (k, v) else p)).find? (fun p => p.1 == t)
        = d.find? (fun p => p.1 == t) := by
  intro d
  induction d with
  | nil => rfl
  | cons p d ih =>
      simp only [List.map_cons]
      by_cases hp : p.1 = k
      · rw [if_pos (by simp [hp] : (p.1 == k) = true),
          List.find?_cons_of_neg _ (by simp; exact fun h => hne (Eq.symm h)),
          List.find?_cons_of_neg _ (by simp [hp]; exact fun h => hne (Eq.symm h))]
        exact ih
      · rw [if_neg (by simp [hp] : ¬ ((p.1 == k) = true))]
        by_cases hpt : p.1 = t
        · rw [List.find?_cons_of_pos _ (by simp [hpt]),
            List.find?_cons_of_pos _ (by simp [hpt])]
        · rw [List.find?_cons_of_neg _ (by simp [hpt]),
            List.find?_cons_of_neg _ (by simp [hpt])]
          exact ih

theorem dictGetEvent_dictInsert (d : List (String × Event)) (k : String)
    (v : Event) (t : String) :
    dictGetEvent (dictInsert d k v) t = if t = k then some v else dictGetEvent d t := by
  unfold dictInsert dictGetEvent
  by_cases h : (d.find? (fun p => p.1 == k)).isSome
  · rw [if_pos h]
    by_cases htk : t = k
    · subst htk
      rw [if_pos rfl, find_map_key_eq t v d h]
      rfl
    · rw [if_neg htk, find_map_key_ne k v t htk d]
  · rw [if_neg h]
    rw [List.find?_append]
    by_cases htk : t = k
    · subst htk
      have hnone : d.find? (fun p => p.1 == t) = none :=
        Option.not_isSome_iff_eq_none.mp h
      rw [hnone, List.find?_cons_of_pos _ (by simp)]
      simp
    · have hkt : ((k, v).1 == t) = false := by
        simp only [beq_eq_false_iff_ne, ne_eq]
        exact fun hh => htk (Eq.symm hh)
      have hsingle : (([(k, v)] : List (String × Event)).find?
          (fun p => p.1 == t)) = none := by
        rw [List.find?_cons_of_neg _ (by simp [hkt])]
        rfl
      rw [hsingle, if_neg htk]
      cases hd : d.find? (fun p => p.1 == t) with
      | none => simp
      | some q => simp

/-- C7 (amended): within one loaded corpus, the by-title dictionary holds
exactly one entry per title, and a lookup returns the LAST-loaded event with
that title (later events overwrite earlier ones in the dict comprehension). -/
theorem duplicate_title_policy (es : List Event) (t : String) :
    dictGetEvent (eventsByTitle es) t
      = es.reverse.find? (fun e => e.event_title == t)
    ∧ (allMainEventTitles (eventsByTitle es)).Nodup := by
  constructor
  · induction es using List.reverseRecOn with
    | nil => rfl
    | append_singleton es e ih =>
        have hsplit : eventsByTitle (es ++ [e])
            = dictInsert (eventsByTitle es) e.event_title e := by
          unfold eventsByTitle
          rw [List.foldl_append]
          rfl
        rw [hsplit, dictGetEvent_dictInsert, List.reverse_append]
        simp only [List.reverse_singleton, List.singleton_append]
        by_cases h : e.event_title = t
        · rw [if_pos (Eq.symm h), List.find?_cons_of_pos _ (by simp [h])]
        · rw [if_neg (fun hh => h (Eq.symm hh)),
            List.find?_cons_of_neg _ (by simp [h]), ih]
  · suffices h : ∀ (l : List Event) (d : List (String × Event)),
        (allMainEventTitles d).Nodup →
        (allMainEventTitles (l.foldl (fun d e => dictInsert d e.event_title e) d)).Nodup by
      exact h es [] List.nodup_nil
    intro l
    induction l with
    | nil => exact fun d hd => hd
    | cons e l ihl =>
        intro d hd
        simp only [List.foldl_cons]
        apply ihl
        unfold dictInsert allMainEventTitles
        by_cases h : (d.find? (fun p => p.1 == e.event_title)).isSome
        · rw [if_pos h, List.map_map]
          have hfst : ((fun p : String × Event => p.1) ∘
              fun p : String × Event =>
                if p.1 == e.event_title then (e.event_title, e) else p)
              = fun p : String × Event => p.1 := by
            funext p
            by_cases hp : p.1 = e.event_title <;> simp [Function.comp, hp]
          rw [hfst]
          exact hd
        · rw [if_neg h, List.map_append]
          have hfresh : e.event_title ∉ allMainEventTitles d := by
            intro hmem
            rcases List.mem_map.mp hmem with ⟨p, hp, hpk⟩
            have : (d.find? (fun p => p.1 == e.event_title)).isSome :=
              List.find?_isSome.mpr ⟨p, hp, by simp [hpk]⟩
            exact h this
          simp only [List.map_cons, List.map_nil]
          rw [List.nodup_append]
          exact ⟨hd, List.nodup_singleton _, fun a ha hb => by
            rw [List.mem_singleton.mp hb] at ha
            exact hfresh ha⟩

/-- C7 counterexample: two distinct events share the title "A"; the lookup used
by link resolution returns the second-loaded event, not the first — the
first-loaded-wins policy in the claim is the opposite of what the code does. -/
theorem duplicate_title_cex :
    dictGetEvent
        (eventsByTitle [mkEvent "1" "A" none none, mkEvent "2" "A" none none]) "A"
      = some (mkEvent "2" "A" none none)
    ∧ (mkEvent "2" "A" none none).event_id ≠ (mkEvent "1" "A" none none).event_id :=
  ⟨rfl, by decide⟩

/-! ### Completeness accounting -/

theorem find?_none_of_not_key (d : List (String × Event)) (k : String)
    (h : k ∉ allMainEventTitles d) :
    (d.find? (fun p => p.1 == k)).isSome = false := by
  rw [Bool.eq_false_iff]
  intro hs
  rcases Option.isSome_iff_exists.mp hs with ⟨q, hq⟩
  have hqd := List.mem_of_find?_eq_some hq
  have hqk : q.1 = k := by simpa using List.find?_some hq
  exact h (hqk ▸ List.mem_map_of_mem _ hqd)

theorem keys_of_nodup_titles (es : List Event)
    (h : (es.map (fun e => e.event_title)).Nodup) :
    allMainEventTitles (eventsByTitle es) = es.map (fun e => e.event_title) := by
  suffices hgen : ∀ (l : List Event) (d : List (String × Event)),
      (allMainEventTitles d ++ l.map (fun e => e.event_title)).Nodup →
      allMainEventTitles (l.foldl (fun d e => dictInsert d e.event_title e) d)
        = allMainEventTitles d ++ l.map (fun e => e.event_title) by
    have := hgen es [] (by simpa [allMainEventTitles] using h)
    simpa [eventsByTitle, allMainEventTitles] using this
  intro l
  induction l with
  | nil => intro d _; simp
  | cons e l ihl =>
      intro d hd
      have hfresh : e.event_title ∉ allMainEventTitles d := by
        intro hmem
        rcases List.nodup_append.mp hd with ⟨_, _, hdisj⟩
        exact hdisj hmem (by simp)
      have hins : allMainEventTitles (dictInsert d e.event_title e)
          = allMainEventTitles d ++ [e.event_title] := by
        unfold dictInsert allMainEventTitles
        rw [if_neg (by simp [find?_none_of_not_key d _ hfresh]), List.map_append]
        rfl
      simp only [List.foldl_cons]
      rw [ihl (dictInsert d e.event_title e)
          (by rw [hins]
              simpa [List.append_assoc] using hd),
        hins]
      simp

theorem finalProcessed_eq (score : String → String → Nat) (es : List Event) :
    finalProcessed score es = ((fullTimeline score es).map normTitle).reverse :=
  (foldl_chains_invariant score (eventsByTitle es)
    (allMainEventTitles (eventsByTitle es)) (es.length + 1)
    (startingEvents es) ([], []) rfl List.nodup_nil).1

theorem fullTimeline_nodup_titles (score : String → String → Nat)
    (es : List Event) : ((fullTimeline score es).map normTitle).Nodup :=
  (foldl_chains_invariant score (eventsByTitle es)
    (allMainEventTitles (eventsByTitle es)) (es.length + 1)
    (startingEvents es) ([], []) rfl List.nodup_nil).2

theorem fullTimeline_subset (score : String → String → Nat) (es : List Event) :
    ∀ e ∈ fullTimeline score es, e ∈ es := by
  intro e he
  rcases List.mem_flatten.mp he with ⟨c, hc, hec⟩
  exact chains_mem score es (allMainEventTitles (eventsByTitle es))
    (es.length + 1) (startingEvents es) ([], [])
    (fun _ hse => List.mem_of_mem_filter hse) (by simp) c hc e hec

/-- C6 (amended): `placed_count + orphan_count = total_loaded_count` holds
whenever the loaded titles are pairwise distinct and already in normal form.
(The counterexample shows the unrestricted claim fails: the orphan set is the
raw-title set minus the normalized processed set, so a placed event whose raw
title is not normalization-fixed is counted on both sides.) -/
theorem completeness_accounting (score : String → String → Nat) (es : List Event)
    (h1 : (es.map (fun e => e.event_title)).Nodup)
    (h2 : ∀ e ∈ es, normTitle e = e.event_title) :
    placedCount score es + orphanCount score es = es.length := by
  have hTsub := fullTimeline_subset score es
  have hmapeq : (fullTimeline score es).map normTitle
      = (fullTimeline score es).map (fun e => e.event_title) :=
    List.map_congr_left (fun e he => h2 e (hTsub e he))
  have hTnodup : ((fullTimeline score es).map (fun e => e.event_title)).Nodup := by
    rw [← hmapeq]
    exact fullTimeline_nodup_titles score es
  have hmem : ∀ t : String, t ∈ finalProcessed score es
      ↔ t ∈ (fullTimeline score es).map (fun e => e.event_title) := by
    intro t
    rw [finalProcessed_eq, List.mem_reverse, hmapeq]
  have hsubL : ∀ t ∈ (fullTimeline score es).map (fun e => e.event_title),
      t ∈ es.map (fun e => e.event_title) := by
    intro t ht
    rcases List.mem_map.mp ht with ⟨e, he, het⟩
    exact het ▸ List.mem_map_of_mem _ (hTsub e he)
  have hfiltereq : (es.map (fun e => e.event_title)).filter
        (fun t => decide (t ∉ finalProcessed score es))
      = (es.map (fun e => e.event_title)).filter
        (fun t => !(decide (t ∈ (fullTimeline score es).map
          (fun e => e.event_title)))) := by
    apply List.filter_congr
    intro t _
    rw [decide_not]
    exact congrArg (fun b => !b) (decide_eq_decide.mpr (hmem t))
  have hSlen : ((es.map (fun e => e.event_title)).filter
        (fun t => decide (t ∈ (fullTimeline score es).map
          (fun e => e.event_title)))).length
      = ((fullTimeline score es).map (fun e => e.event_title)).length := by
    have hpermS : List.Perm ((es.map (fun e => e.event_title)).filter
          (fun t => decide (t ∈ (fullTimeline score es).map
            (fun e => e.event_title))))
        ((fullTimeline score es).map (fun e => e.event_title)) := by
      apply (List.perm_ext_iff_of_nodup (h1.filter _) hTnodup).mpr
      intro x
      rw [List.mem_filter]
      constructor
      · rintro ⟨_, hx⟩
        exact of_decide_eq_true hx
      · intro hx
        exact ⟨hsubL x hx, decide_eq_true hx⟩
    exact hpermS.length_eq
  have hperm := List.filter_append_perm
    (fun t => decide (t ∈ (fullTimeline score es).map (fun e => e.event_title)))
    (es.map (fun e => e.event_title))
  have hlen := hperm.length_eq
  rw [List.length_append] at hlen
  unfold placedCount orphanCount missedEvents
  rw [keys_of_nodup_titles es h1, hfiltereq]
  have hplen : (fullTimeline score es).length
      = ((fullTimeline score es).map (fun e => e.event_title)).length :=
    (List.length_map _ _).symm
  rw [hplen, ← hSlen]
  rw [hlen]
  exact List.length_map _ _

/-- C6 counterexample: the one-event corpus whose title "A " carries a
trailing space.  The event is placed (placed_count = 1), yet its raw title
never enters the normalized processed set, so it is also reported as an
orphan (orphan_count = 1): 1 + 1 = 2 exceeds the single loaded event, and the
unrestricted accounting claim fails. -/
theorem completeness_cex :
    placedCount (fun _ _ => 0) [mkEvent "1" "A " none none]
        + orphanCount (fun _ _ => 0) [mkEvent "1" "A " none none] = 2
    ∧ ([mkEvent "1" "A " none none] : List Event).length = 1 :=
  ⟨rfl, rfl⟩

/-- C6 witness: the amended accounting at a concrete two-event corpus with
distinct normalization-fixed titles. -/
theorem completeness_accounting_witness :
    placedCount (fun _ _ => 0)
        [mkEvent "1" "A" none none, mkEvent "2" "B" none none]
      + orphanCount (fun _ _ => 0)
        [mkEvent "1" "A" none none, mkEvent "2" "B" none none] = 2 :=
  completeness_accounting (fun _ _ => 0)
    [mkEvent "1" "A" none none, mkEvent "2" "B" none none]
    (by decide) (by decide)

/-! ### Loading (`load_main_events`, lines 32-53) -/

/-- The field names of the `Event` dataclass, as `fields(Event)` yields them
(line 46). -/
def eventFieldNames : List String :=
  ["event_id", "event_title", "url", "event_type", "chapter", "synopsis",
   "characters", "locations", "requirements", "choices", "effects",
   "navigation", "trivia", "changelog", "timeline_index"]

/-- The dataclass fields with no default value: every field except
`timeline_index`.  `Event(**kwargs)` raises `TypeError` unless each of these
is supplied. -/
def requiredFieldNames : List String :=
  ["event_id", "event_title", "url", "event_type", "chapter", "synopsis",
   "characters", "locations", "requirements", "choices", "effects",
   "navigation", "trivia", "changelog"]

/-- `{k: v for k, v in data.items() if k in known_keys}` (line 47). -/
def filterKnown (d : List (String × Json)) : List (String × Json) :=
  d.filter (fun p => eventFieldNames.contains p.1)

/-- `Event(**filtered_data)` (line 48): constructs the record (kept as its
field assignment, since Python dataclasses store but do not validate values)
iff every non-defaulted field is supplied, defaulting `timeline_index` to
null; a missing required field raises `TypeError`, modelled as `none`. -/
def pyEventNew (d : List (String × Json)) : Option (List (String × Json)) :=
  if requiredFieldNames.all (fun k => d.any (fun p => p.1 == k)) then
    some (if d.any (fun p => p.1 == "timeline_index") then d
          else d ++ [("timeline_index", Json.null)])
  else none

/-- One iteration of the load loop (lines 43-50): any exception inside the
`try` (a `json.load` parse failure — modelled as `none` — or the `TypeError`
of a missing required field) is caught, a warning is printed and the file is
skipped. -/
def loadDoc (doc : Option (List (String × Json))) : Option (List (String × Json)) :=
  doc.bind (fun d => pyEventNew (filterKnown d))

/-- `load_main_events` over a directory's parsed documents: the records of the
documents that load, in order; failures are skipped and loading continues. -/
def loadMainEvents (docs : List (Option (List (String × Json)))) :
    List (List (String × Json)) :=
  docs.filterMap loadDoc

theorem all_congr_mem (l : List String) (f g : String → Bool)
    (h : ∀ k ∈ l, f k = g k) : l.all f = l.all g := by
  induction l with
  | nil => rfl
  | cons a l ih =>
      simp only [List.all_cons, h a (List.mem_cons_self _ _),
        ih (fun k hk => h k (List.mem_cons_of_mem _ hk))]

theorem any_filterKnown (d : List (String × Json)) (k : String)
    (hk : k ∈ eventFieldNames) :
    (filterKnown d).any (fun p => p.1 == k) = d.any (fun p => p.1 == k) := by
  induction d with
  | nil => rfl
  | cons p d ih =>
      rw [filterKnown, List.filter_cons]
      rw [filterKnown] at ih
      by_cases hp : (eventFieldNames.contains p.1) = true
      · rw [if_pos hp]
        simp only [List.any_cons]
        rw [ih]
      · rw [if_neg hp]
        have hpk : (p.1 == k) = false := by
          rw [beq_eq_false_iff_ne]
          intro hpke
          exact hp (by rw [hpke]; exact List.elem_iff.mpr hk)
        simp only [List.any_cons, hpk, Bool.false_or]
        exact ih

/-- C10 (amended): during loading, unknown keys are ignored, an unparseable
document is skipped and loading of the remaining documents continues, and no
load failure aborts the run — but missing keys do NOT default: a document
missing any of the fourteen non-defaulted fields (all fields except
`timeline_index`, including optional-typed ones such as `synopsis`) raises
inside the `try` and is skipped exactly like a parse failure, while a
document carrying all fourteen loads. -/
theorem load_tolerance :
    (∀ (d : List (String × Json)) (k : String) (v : Json), k ∉ eventFieldNames →
        loadDoc (some ((k, v) :: d)) = loadDoc (some d))
    ∧ (∀ docs, loadMainEvents (none :: docs) = loadMainEvents docs)
    ∧ (∀ d, requiredFieldNames.all (fun k => d.any (fun p => p.1 == k)) = false →
        loadDoc (some d) = none)
    ∧ (∀ d, requiredFieldNames.all (fun k => d.any (fun p => p.1 == k)) = true →
        ∃ ev, loadDoc (some d) = some ev) := by
  have hsub : ∀ k ∈ requiredFieldNames, k ∈ eventFieldNames := by decide
  have hall : ∀ d : List (String × Json),
      requiredFieldNames.all (fun k => (filterKnown d).any (fun p => p.1 == k))
        = requiredFieldNames.all (fun k => d.any (fun p => p.1 == k)) :=
    fun d => all_congr_mem _ _ _ (fun k hk => any_filterKnown d k (hsub k hk))
  refine ⟨fun d k v hk => ?_, fun docs => rfl, fun d hd => ?_, fun d hd => ?_⟩
  · show pyEventNew (filterKnown ((k, v) :: d)) = pyEventNew (filterKnown d)
    rw [filterKnown, List.filter_cons, if_neg (by simpa using hk)]
    rfl
  · show pyEventNew (filterKnown d) = none
    rw [pyEventNew, hall d, hd]
    rfl
  · show ∃ ev, pyEventNew (filterKnown d) = some ev
    rw [pyEventNew, hall d, hd]
    exact ⟨_, rfl⟩

/-- C10 witness: an unknown key "bogus" is ignored, and a document carrying
only `event_id` (missing other required fields) is skipped. -/
theorem load_tolerance_witness :
    loadDoc (some [("bogus", Json.null)]) = loadDoc (some ([] : List (String × Json)))
    ∧ loadDoc (some [("event_id", Json.str "1")]) = none :=
  ⟨load_tolerance.1 [] "bogus" Json.null (by decide),
   load_tolerance.2.2.1 [("event_id", Json.str "1")] (by decide)⟩

/-- C10 counterexample: a parseable document carrying every required field
except the optional-typed `synopsis`.  The claim says a missing optional key
defaults to absent/empty; the code instead raises `TypeError` in
`Event(**filtered_data)` and skips the whole document, so nothing is loaded. -/
theorem load_missing_optional_cex :
    loadMainEvents [some [("event_id", Json.str "1"), ("event_title", Json.str "A"),
      ("url", Json.str ""), ("event_type", Json.null), ("chapter", Json.null),
      ("characters", Json.arr []), ("locations", Json.arr []),
      ("requirements", Json.null), ("choices", Json.arr []),
      ("effects", Json.arr []), ("navigation", Json.obj []),
      ("trivia", Json.arr []), ("changelog", Json.arr [])]] = [] :=
  rfl

end TimelineBuilder
